import Mathlib

/-!
Verification development for the `mkdown` markdown-conversion pipeline.

This file gives a shallow embedding, in Lean 4, of the parts of the
`mkdown` source that the checked properties are about:

* `src/mkdown/mdparser.py` — `MarkdownConverter`: engine validation,
  cache-key generation (`_get_cache_key`), and the converter cache
  discipline of `convert` / `_convert_with_engine`;
* `src/mkdown/sanitizers/factory.py` — `create_sanitizer` resolution;
* `src/mkdown/tree_processors/extract_title.py` — the two
  title-extraction tree processors;
* `src/mkdown/post_processors/prettify.py` — `Prettify.process_html`;
* `src/mkdown/parsers/marko_parser/parser.py` — `MarkoParser` extension
  list construction and per-call overrides;
* `src/mkdown/comrak_parser/parser.py` — the `list_style` marker lookup.

Python values that can appear in the embedded fragments are modelled by
`PyVal`; Python dicts by association lists with dict update semantics;
external libraries (the markdown engines themselves, `json.dumps`,
BeautifulSoup) are modelled at their interface, as explained at each
definition.
-/

set_option maxRecDepth 8000

namespace Mkdown

/-- Model of the Python values that occur in the embedded code: strings,
booleans, integers, `None`, and lists of strings (the `extensions` value). -/
inductive PyVal where
  | pstr (s : String)
  | pbool (b : Bool)
  | pint (n : Int)
  | pnone
  | pstrlist (l : List String)
deriving DecidableEq, Repr

/-- The keys of an association list (modelling a Python dict's key view). -/
def keysOf (l : List (String × PyVal)) : List String := l.map Prod.fst

/-- Python dict assignment `d[k] = v`: replace the value in place if the key
is present, otherwise append the binding at the end. -/
def dictInsert (l : List (String × PyVal)) (k : String) (v : PyVal) :
    List (String × PyVal) :=
  if l.any (fun p => p.1 = k) then l.map (fun p => if p.1 = k then (k, v) else p)
  else l ++ [(k, v)]

/-- Python dict construction `{**base, **kw}` (equivalently `base.update(kw)`):
fold dict assignment over the keyword bindings. -/
def dictUpdate (base : List (String × PyVal)) (kw : List (String × PyVal)) :
    List (String × PyVal) :=
  kw.foldl (fun acc p => dictInsert acc p.1 p.2) base

/-- Python `sorted` on a list of strings (`sorted(extensions)`). -/
def sortStrings (l : List String) : List String :=
  l.insertionSort (· ≤ ·)

/-- Order on dict items used by `json.dumps(..., sort_keys=True)`:
items are emitted in key order. -/
def keyLe (p q : String × PyVal) : Prop := p.1 ≤ q.1

instance : DecidableRel keyLe := fun p q => inferInstanceAs (Decidable (p.1 ≤ q.1))

instance : IsTotal (String × PyVal) keyLe := ⟨fun p q => le_total p.1 q.1⟩

instance : IsTrans (String × PyVal) keyLe := ⟨fun _ _ _ h h' => le_trans h h'⟩

/-- The key-sorted item list of a dict, which is what
`json.dumps(cache_data, sort_keys=True)` serializes.  `json.dumps` with
sorted keys is injective on such values and is a function of this sorted
item list, so we take the sorted item list itself as the cache key. -/
def sortPairs (l : List (String × PyVal)) : List (String × PyVal) :=
  l.insertionSort keyLe

namespace MarkdownConverter

/-- `MarkdownConverter.SUPPORTED_ENGINES` from `mdparser.py`. -/
def SUPPORTED_ENGINES : List String :=
  ["python-markdown", "mistune", "markdown2", "markdownify", "mdx_math"]

/-- `MarkdownConverter.__init__`: accept the engine name if it is in
`SUPPORTED_ENGINES`, otherwise raise `ValueError` with a message listing the
supported engines. -/
def init (engine : String) : Except String String :=
  if engine ∈ SUPPORTED_ENGINES then .ok engine
  else .error ("Unsupported engine. Choose from: " ++
    String.intercalate ", " SUPPORTED_ENGINES)

/-- The `"extensions"` entry of `cache_data` in `_get_cache_key`:
`sorted(extensions) if extensions else None`.  Python truthiness makes both
`None` and the empty list map to `None`. -/
def extVal : Option (List String) → PyVal
  | none => .pnone
  | some [] => .pnone
  | some (a :: t) => .pstrlist (sortStrings (a :: t))

/-- The `cache_data` dict of `_get_cache_key`:
`{"engine": self.engine, "extensions": sorted(extensions) if extensions else None, **kwargs}`. -/
def cache_data (engine : String) (extensions : Option (List String))
    (kwargs : List (String × PyVal)) : List (String × PyVal) :=
  dictUpdate [("engine", .pstr engine), ("extensions", extVal extensions)] kwargs

/-- `MarkdownConverter._get_cache_key`: `json.dumps(cache_data, sort_keys=True)`,
modelled by the key-sorted item list of `cache_data` (see `sortPairs`). -/
def get_cache_key (engine : String) (extensions : Option (List String))
    (kwargs : List (String × PyVal)) : List (String × PyVal) :=
  sortPairs (cache_data engine extensions kwargs)

/-- State of the class-level converter cache together with an allocator of
converter identities: each construction of a backend converter object yields
a fresh identity `nextId`, so that instance reuse is observable. -/
structure ConvState where
  cache : List (List (String × PyVal) × Nat)
  nextId : Nat
deriving DecidableEq, Repr

/-- The engines for which `_convert_with_engine` has a conversion branch
(`python-markdown`, `mistune`, `markdown2`); for every other engine name it
raises `ValueError(f"Unsupported engine: {self.engine}")`. -/
def engineHasAdapter (engine : String) : Bool :=
  engine = "python-markdown" || engine = "mistune" || engine = "markdown2"

/-- `MarkdownConverter._convert_with_engine`: for an engine with a branch the
engine-specific helper constructs a fresh backend converter (fresh identity,
assigned to `self.converter`) and renders; otherwise it raises
`ValueError("Unsupported engine: ...")`.  The rendered HTML string is produced
by the external engine and is not modelled; the result is the identity of the
converter used. -/
def convert_with_engine (engine : String) (s : ConvState) :
    Except String Nat × ConvState :=
  if engineHasAdapter engine then
    (.ok s.nextId, { s with nextId := s.nextId + 1 })
  else
    (.error ("Unsupported engine: " ++ engine), s)

/-- `MarkdownConverter.convert` (the caching discipline of its body): with
caching enabled, compute the cache key from `(extensions, **kwargs)` — note
that the named parameter `admonitions` is not part of the key — and reuse the
cached converter on a hit; on a miss, construct via `_convert_with_engine`
and store the constructed converter under the key.  With caching disabled,
always construct via `_convert_with_engine` and never touch the cache.
The first component is the identity of the converter that served the call
(or the raised error). -/
def convert (engine : String) (cache_enabled : Bool)
    (extensions : Option (List String)) (admonitions : Bool)
    (kwargs : List (String × PyVal)) (s : ConvState) :
    Except String Nat × ConvState :=
  if cache_enabled then
    match s.cache.lookup (get_cache_key engine extensions kwargs) with
    | some cid => (.ok cid, s)
    | none =>
      match convert_with_engine engine s with
      | (.ok cid, s') =>
        (.ok cid,
         { s' with cache := s'.cache ++ [(get_cache_key engine extensions kwargs, cid)] })
      | (.error m, s') => (.error m, s')
  else convert_with_engine engine s

end MarkdownConverter

/-- The two sanitizer backends `sanitizers/factory.py` can construct. -/
inductive SanitizerBackend where
  | nh3
  | bleach
deriving DecidableEq, Repr

/-- The `ImportError` message raised by `create_sanitizer` when no backend is
available. -/
def no_sanitizer_msg : String :=
  "No HTML sanitizer available. Install one of: " ++
    "'nh3' (recommended, Rust-based) or 'bleach' (pure Python)."

/-- Whether `sub` is a leading segment of `l`. -/
def startsWithChars : List Char → List Char → Bool
  | [], _ => true
  | _ :: _, [] => false
  | a :: as, b :: bs => a = b && startsWithChars as bs

/-- Whether `sub` occurs as a contiguous segment of `l`. -/
def containsChars (sub : List Char) : List Char → Bool
  | [] => startsWithChars sub []
  | b :: bs => startsWithChars sub (b :: bs) || containsChars sub bs

/-- Whether `sub` occurs as a substring of `s` (used to state that an error
message names an installable option). -/
def mentions (s sub : String) : Bool := containsChars sub.data s.data

/-- `create_sanitizer` from `sanitizers/factory.py`, with the module-level
availability probes `NH3_AVAILABLE` / `BLEACH_AVAILABLE` passed as inputs:
honor an explicit available backend name, else auto-select `nh3` then
`bleach`, else raise an `ImportError` naming the installable options.
The constructed sanitizer instance is represented by its backend. -/
def create_sanitizer (nh3_available bleach_available : Bool)
    (sanitizer_name : Option String) : Except String SanitizerBackend :=
  if sanitizer_name = some "nh3" ∧ nh3_available then .ok .nh3
  else if sanitizer_name = some "bleach" ∧ bleach_available then .ok .bleach
  else if nh3_available then .ok .nh3
  else if bleach_available then .ok .bleach
  else .error no_sanitizer_msg

/-- The constructor options of `post_processors/prettify.py`'s `Prettify`
(sanitization allow-lists, strip flags, priority). -/
structure Prettify where
  allowed_tags : Option (List String)
  allowed_attributes : Option (List (String × List String))
  allowed_protocols : Option (List String)
  strip : Bool
  strip_comments : Bool
  priority : Int
deriving DecidableEq, Repr

/-- `Prettify.process_html`: `BeautifulSoup(html, "html.parser").prettify()`.
The external BeautifulSoup round-trip is modelled as a parameter
`beautifulsoup_prettify`; the body applies it to `html` and uses nothing from
`self`. -/
def Prettify.process_html (beautifulsoup_prettify : String → String)
    (_self : Prettify) (html : String) : String :=
  beautifulsoup_prettify html

namespace Comrak

/-- The marker-code dict `{"-": 45, "+": 43, "*": 42}` from
`comrak_parser/parser.py`'s `markdown_to_html`. -/
def list_style_codes : List (String × Nat) := [("-", 45), ("+", 43), ("*", 42)]

/-- `render_opts.list_style = {"-": 45, "+": 43, "*": 42}[list_style]`:
dict subscription, which raises `KeyError` (here `none`) off the three keys. -/
def list_style_code (list_style : String) : Option Nat :=
  list_style_codes.lookup list_style

/-- The default value of the `list_style` parameter of `markdown_to_html`. -/
def list_style_default : String := "-"

end Comrak

namespace MarkoParser

/-- The feature flags of `MarkoParser.__init__` that participate in extension
list construction (`parsers/marko_parser/parser.py`). -/
structure Args where
  tables : Bool := false
  footnotes : Bool := false
  strikethrough : Bool := false
  tasklists : Bool := false
  gfm : Bool := false
  pangu : Bool := false
  codehilite : Bool := false
  toc : Bool := false
deriving DecidableEq, Repr

instance : Fintype Args :=
  Fintype.ofEquiv (Bool × Bool × Bool × Bool × Bool × Bool × Bool × Bool)
    { toFun := fun p =>
        ⟨p.1, p.2.1, p.2.2.1, p.2.2.2.1, p.2.2.2.2.1, p.2.2.2.2.2.1,
          p.2.2.2.2.2.2.1, p.2.2.2.2.2.2.2⟩
      invFun := fun a =>
        (a.tables, a.footnotes, a.strikethrough, a.tasklists, a.gfm, a.pangu,
          a.codehilite, a.toc)
      left_inv := fun _ => rfl
      right_inv := fun _ => rfl }

/-- The `self._extensions` list built by `MarkoParser.__init__`: the GFM-implied
extensions only when `gfm` is off, then footnote/pangu/codehilite/toc. -/
def initExtensions (a : Args) : List String :=
  (if !a.gfm then
    (if a.tables then ["tables"] else []) ++
    (if a.strikethrough then ["strikethrough"] else []) ++
    (if a.tasklists then ["tasklist"] else [])
  else []) ++
  (if a.footnotes then ["footnote"] else []) ++
  (if a.pangu then ["pangu"] else []) ++
  (if a.codehilite then ["codehilite"] else []) ++
  (if a.toc then ["toc"] else [])

/-- The `common_options` dict of `MarkoParser.convert`, as its (insertion
ordered) item list: per-call option key → marko extension name. -/
def commonOptions : List (String × String) :=
  [("tables", "tables"), ("table", "tables"),
   ("footnotes", "footnote"), ("footnote", "footnote"),
   ("strikethrough", "strikethrough"),
   ("tasklist", "tasklist"), ("tasklists", "tasklist"),
   ("pangu", "pangu"), ("codehilite", "codehilite"), ("toc", "toc")]

/-- The extension names excluded from per-call toggling when GFM is on
(`if v not in ["tables", "strikethrough", "tasklist"]`). -/
def gfmExcluded : List String := ["tables", "strikethrough", "tasklist"]

/-- One iteration of the per-call override loop in `MarkoParser.convert`:
if the option key is present and truthy, append the extension when absent;
if present and falsy, remove the extension when present.  Per-call option
values are truthiness-tested by the source, so they are modelled as `Bool`. -/
def toggleStep (options : List (String × Bool)) (exts : List String)
    (p : String × String) : List String :=
  match options.lookup p.1 with
  | some true => if p.2 ∈ exts then exts else exts ++ [p.2]
  | some false => if p.2 ∈ exts then exts.erase p.2 else exts
  | none => exts

/-- The extension list that `MarkoParser.convert` hands to `marko.Markdown`
for a call with per-call `options`: with no options, the constructed list;
otherwise start from the constructed list, read `gfm` from the options with
the constructed value as default, and run the override loop — over all of
`common_options` when GFM is off, and only over the non-GFM-implied entries
when GFM is on. -/
def convertExtensions (a : Args) (options : List (String × Bool)) : List String :=
  if options = [] then initExtensions a
  else if (options.lookup "gfm").getD a.gfm then
    (commonOptions.filter (fun p => p.2 ∉ gfmExcluded)).foldl
      (toggleStep options) (initExtensions a)
  else commonOptions.foldl (toggleStep options) (initExtensions a)

/-- The effective GFM setting of a `MarkoParser.convert` call:
`options.get("gfm", self._features["gfm"])` when options are supplied,
the constructed flag otherwise. -/
def effectiveGfm (a : Args) (options : List (String × Bool)) : Bool :=
  if options = [] then a.gfm else (options.lookup "gfm").getD a.gfm

end MarkoParser

/-- An HTML DOM element in the ElementTree data model: tag, attributes,
leading text, child elements, and the text following the element's end tag
(`tail`).  Both `xml.etree.ElementTree` and `lxml.etree` elements carry
exactly this structure. -/
inductive Elem where
  | mk (tag : String) (attrib : List (String × String)) (text : Option String)
      (children : List Elem) (tail : Option String)
deriving Repr

def Elem.tag : Elem → String
  | .mk t _ _ _ _ => t

def Elem.attrib : Elem → List (String × String)
  | .mk _ a _ _ _ => a

def Elem.text : Elem → Option String
  | .mk _ _ x _ _ => x

def Elem.children : Elem → List Elem
  | .mk _ _ _ cs _ => cs

def Elem.tail : Elem → Option String
  | .mk _ _ _ _ tl => tl

/-- Replace the child list of an element (used to model removing a child from
a copy of the element). -/
def Elem.setChildren : Elem → List Elem → Elem
  | .mk t a x _ tl, cs => .mk t a x cs tl

mutual

def elemDecEq : (a b : Elem) → Decidable (a = b)
  | .mk t1 a1 x1 c1 l1, .mk t2 a2 x2 c2 l2 => by
    cases elemListDecEq c1 c2 with
    | isTrue hc =>
      exact if h : t1 = t2 ∧ a1 = a2 ∧ x1 = x2 ∧ l1 = l2 then
        .isTrue (by simp [h.1, h.2.1, h.2.2.1, h.2.2.2, hc])
      else .isFalse (by
        intro he; injection he
        exact h ⟨by assumption, by assumption, by assumption, by assumption⟩)
    | isFalse hc => exact .isFalse (by intro he; injection he; exact hc (by assumption))

def elemListDecEq : (a b : List Elem) → Decidable (a = b)
  | [], [] => .isTrue rfl
  | [], _ :: _ => .isFalse (by simp)
  | _ :: _, [] => .isFalse (by simp)
  | x :: xs, y :: ys => by
    cases elemDecEq x y with
    | isTrue h1 =>
      cases elemListDecEq xs ys with
      | isTrue h2 => exact .isTrue (by rw [h1, h2])
      | isFalse h2 => exact .isFalse (by simp [h2])
    | isFalse h1 => exact .isFalse (by simp [h1])

end

instance : DecidableEq Elem := elemDecEq

/-- The ASCII whitespace characters removed by Python `str.strip()`. -/
def isPySpace (c : Char) : Bool :=
  c = ' ' || c = '\t' || c = '\n' || c = '\r' || c = '\x0b' || c = '\x0c'

/-- Drop the leading whitespace of a character list. -/
def dropLeadingSpace : List Char → List Char
  | [] => []
  | c :: t => if isPySpace c then dropLeadingSpace t else c :: t

/-- Python `str.strip()` with no argument: remove leading and trailing
whitespace. -/
def pyStrip (s : String) : String :=
  ⟨(dropLeadingSpace (dropLeadingSpace s.data).reverse).reverse⟩

mutual

/-- Modelled from the spec: the tree processors' `get_text_content` helper
(its `base.py` is not under `src/`) — "Extract all text content" of an
element, i.e. `"".join(element.itertext())` / lxml `text_content()`: the
element's own text followed by, for each child in order, the child's text
content and then the child's tail. -/
def itertext : Elem → String
  | .mk _ _ t cs _ => t.getD "" ++ itertextList cs

def itertextList : List Elem → String
  | [] => ""
  | c :: rest => itertext c ++ c.tail.getD "" ++ itertextList rest

end

mutual

/-- Modelled from the spec: the tree processors' `find_elements` helper with
the ElementTree path `".//h1"` (its `base.py` is not under `src/`) — all
proper descendants of the given element with the given tag, in document
order. -/
def findDesc (tag : String) : Elem → List Elem
  | .mk _ _ _ cs _ => findList tag cs

def findList (tag : String) : List Elem → List Elem
  | [] => []
  | c :: rest =>
    (if c.tag = tag then [c] else []) ++ findDesc tag c ++ findList tag rest

end

/-- Modelled from the spec: `find_elements` with the lxml XPath `"//h1"` —
all elements of the document with the given tag in document order, the root
element included. -/
def findDoc (tag : String) (e : Elem) : List Elem :=
  (if e.tag = tag then [e] else []) ++ findDesc tag e

/-- The trailing-anchor handling of `ExtractTitleETProcessor.process_tree`
(`extract_title.py`): if the heading has children, its last child is an `a`
element, and that child's tail is empty after stripping, work on a copy of
the heading with that last child removed.  This succeeds in the ElementTree
processor because it re-reads `h1[-1]` from the copy after `copy.copy`, so
removal by identity finds the child. -/
def trimTrailingAnchor (h1 : Elem) : Elem :=
  match h1.children.getLast? with
  | some c =>
    if c.tag = "a" ∧ pyStrip (c.tail.getD "") = "" then
      h1.setChildren h1.children.dropLast
    else h1
  | none => h1

/-- The `try` body of `ExtractTitleETProcessor.process_tree`: find the first
`h1` descendant; if none, the early `return tree` leaves the stored title
untouched (`none` here); otherwise the stripped text content of the (possibly
anchor-trimmed) heading becomes the title.  `Except` carries a potential
internal exception to the stage boundary (the operations modelled here are
total, so the body always succeeds). -/
def extract_title_et_body (tree : Elem) : Except String (Option String) :=
  match findDesc "h1" tree with
  | [] => .ok none
  | h1 :: _ => .ok (some (pyStrip (itertext (trimTrailingAnchor h1))))

/-- The `try` body of `ExtractTitleLXMLProcessor.process_tree`:
`find_elements` uses the lxml XPath `"//h1"`; then, unlike the ElementTree
processor, the source captures `children = h1.getchildren()` *before*
`h1 = copy.deepcopy(h1)` and calls `h1.remove(children[-1])` with the
original tree's child.  `deepcopy` gives the copy fresh child nodes and lxml's
`remove` works by object identity, so whenever the trailing-anchor condition
holds this call raises `ValueError` (carried to the stage boundary, which
logs it and leaves the title unset); only when the condition does not hold is
the stripped text content of the untrimmed heading produced. -/
def extract_title_lxml_body (tree : Elem) : Except String (Option String) :=
  match findDoc "h1" tree with
  | [] => .ok none
  | h1 :: _ =>
    match h1.children.getLast? with
    | some c =>
      if c.tag = "a" ∧ pyStrip (c.tail.getD "") = "" then
        .error "Element is not a child of this node"
      else .ok (some (pyStrip (itertext h1)))
    | none => .ok (some (pyStrip (itertext h1)))

/-- The `try ... except Exception` boundary wrapped around the body of both
`process_tree` methods: on success the title attribute is updated when the
body produced one; on an internal exception the error is logged and the
stage is a no-op; the input tree is returned in every case. -/
def process_tree_boundary (body : Elem → Except String (Option String))
    (tree : Elem) (title : Option String) : Elem × Option String :=
  match body tree with
  | .ok (some t) => (tree, some t)
  | .ok none => (tree, title)
  | .error _ => (tree, title)

/-- `ExtractTitleETProcessor.process_tree`, as tree-in/tree-out plus the
stage-local `self.title` state. -/
def ExtractTitleETProcessor.process_tree (tree : Elem) (title : Option String) :
    Elem × Option String :=
  process_tree_boundary extract_title_et_body tree title

/-- `ExtractTitleLXMLProcessor.process_tree`, as tree-in/tree-out plus the
stage-local `self.title` state. -/
def ExtractTitleLXMLProcessor.process_tree (tree : Elem) (title : Option String) :
    Elem × Option String :=
  process_tree_boundary extract_title_lxml_body tree title

/-! Statement-level helper definitions. -/

/-- The keyword options of a `convert` call form a Python dict, so their keys
are distinct. -/
def NodupKeys (kw : List (String × PyVal)) : Prop := (keysOf kw).Nodup

/-- Keyword options that do not reuse the reserved `cache_data` entry names
`"engine"` and `"extensions"`. -/
def ReservedFree (kw : List (String × PyVal)) : Prop :=
  ∀ p ∈ kw, p.1 ≠ "engine" ∧ p.1 ≠ "extensions"

/-- The extensions of a call as a plain list; `None` and the empty list both
mean "no extensions". -/
def extList (e : Option (List String)) : List String := e.getD []

/-- Logical identity of two `(extensions, **kwargs)` configurations:
same multiset of extensions and same keyword options (dicts are unordered). -/
def ConfigEquiv (ext1 : Option (List String)) (kw1 : List (String × PyVal))
    (ext2 : Option (List String)) (kw2 : List (String × PyVal)) : Prop :=
  List.Perm (extList ext1) (extList ext2) ∧ List.Perm kw1 kw2

namespace MarkoParser

/-- The value the per-call override loop of `MarkoParser.convert` leaves for a
given extension name: the last matching override entry in the iteration order
of `common_options`, with fallback `i` (the constructed membership). -/
def resolveFlag (options : List (String × Bool)) (steps : List (String × String))
    (x : String) (i : Bool) : Bool :=
  steps.foldl (fun acc p => if p.2 = x then (options.lookup p.1).getD acc else acc) i

/-- The effective `tables` flag of a call: per-call `"table"` key wins over
per-call `"tables"` (it is iterated later), with the construction-time flag as
fallback. -/
def effectiveTables (a : Args) (options : List (String × Bool)) : Bool :=
  (options.lookup "table").getD ((options.lookup "tables").getD a.tables)

/-- The effective `strikethrough` flag of a call. -/
def effectiveStrikethrough (a : Args) (options : List (String × Bool)) : Bool :=
  (options.lookup "strikethrough").getD a.strikethrough

/-- The effective `tasklists` flag of a call: per-call `"tasklists"` key wins
over per-call `"tasklist"` (it is iterated later), with the construction-time
flag as fallback. -/
def effectiveTasklists (a : Args) (options : List (String × Bool)) : Bool :=
  (options.lookup "tasklists").getD ((options.lookup "tasklist").getD a.tasklists)

end MarkoParser

/-- The heading `<h1>Hello <a href="#x"></a></h1>` of the title-extraction
property: text `"Hello "`, one child — an anchor with empty text and no
tail. -/
def h1HelloAnchor : Elem :=
  .mk "h1" [] (some "Hello ") [.mk "a" [("href", "#x")] none [] none] none

/-- The heading `<h1>Hello <em>World</em></h1>`: text `"Hello "`, one child —
an emphasis with text `"World"` and no tail. -/
def h1HelloEm : Elem :=
  .mk "h1" [] (some "Hello ") [.mk "em" [] (some "World") [] none] none

/-! Theorems. -/

theorem process_tree_boundary_fst (body : Elem → Except String (Option String))
    (tree : Elem) (title : Option String) :
    (process_tree_boundary body tree title).1 = tree := by
  unfold process_tree_boundary
  cases hb : body tree with
  | ok v => cases v <;> simp
  | error e => simp

/-- C5: for every input tree (and any stage body), the title-extraction
`process_tree` of both processors catches internal exceptions at the stage
boundary and returns the input tree unchanged — the stage is a no-op on the
tree in all cases, including the error case. -/
theorem extract_title_process_tree_noop
    (body : Elem → Except String (Option String)) (tree : Elem)
    (title : Option String) :
    (process_tree_boundary body tree title).1 = tree
  ∧ (ExtractTitleETProcessor.process_tree tree title).1 = tree
  ∧ (ExtractTitleLXMLProcessor.process_tree tree title).1 = tree :=
  ⟨process_tree_boundary_fst body tree title,
   process_tree_boundary_fst extract_title_et_body tree title,
   process_tree_boundary_fst extract_title_lxml_body tree title⟩

/-- C4: `Prettify.process_html` depends only on its `html` argument — the
sanitization allow-list options accepted by the constructor have no effect
on the processed HTML. -/
theorem prettify_options_no_effect (beautifulsoup_prettify : String → String)
    (o1 o2 : Prettify) (html : String) :
    Prettify.process_html beautifulsoup_prettify o1 html =
      Prettify.process_html beautifulsoup_prettify o2 html := rfl

/-- C10: the comrak `list_style` marker lookup is a three-valued exclusive
choice: total exactly on `"-"`, `"+"`, `"*"` with native codes 45, 43, 42,
the unspecified default is `"-"` (code 45), and every other value fails. -/
theorem comrak_list_style_exclusive :
    (∀ s : String, s = "-" ∨ s = "+" ∨ s = "*" → (Comrak.list_style_code s).isSome)
  ∧ Comrak.list_style_code "-" = some 45
  ∧ Comrak.list_style_code "+" = some 43
  ∧ Comrak.list_style_code "*" = some 42
  ∧ Comrak.list_style_code Comrak.list_style_default = some 45
  ∧ (∀ s : String, s ≠ "-" → s ≠ "+" → s ≠ "*" → Comrak.list_style_code s = none) := by
  refine ⟨?_, rfl, rfl, rfl, rfl, ?_⟩
  · rintro s (rfl | rfl | rfl) <;> rfl
  · intro s h1 h2 h3
    have e1 : (s == "-") = false := by simp [h1]
    have e2 : (s == "+") = false := by simp [h2]
    have e3 : (s == "*") = false := by simp [h3]
    simp [Comrak.list_style_code, Comrak.list_style_codes, List.lookup, e1, e2, e3]

theorem comrak_list_style_exclusive_witness :
    (Comrak.list_style_code "+").isSome
  ∧ Comrak.list_style_code "x" = none :=
  ⟨comrak_list_style_exclusive.1 "+" (Or.inr (Or.inl rfl)),
   comrak_list_style_exclusive.2.2.2.2.2 "x" (by decide) (by decide) (by decide)⟩

/-- C2: `create_sanitizer` returns the explicitly named backend when it is
available; otherwise it auto-selects `nh3` when available, else `bleach`;
and when neither backend is available it raises an error whose message
names both installable options. -/
theorem create_sanitizer_resolution (nh3A bleachA : Bool) (name : Option String) :
    (name = some "nh3" → nh3A = true →
      create_sanitizer nh3A bleachA name = .ok .nh3)
  ∧ (name = some "bleach" → bleachA = true →
      create_sanitizer nh3A bleachA name = .ok .bleach)
  ∧ (nh3A = true → ¬(name = some "bleach" ∧ bleachA = true) →
      create_sanitizer nh3A bleachA name = .ok .nh3)
  ∧ (nh3A = false → bleachA = true →
      create_sanitizer nh3A bleachA name = .ok .bleach)
  ∧ (nh3A = false → bleachA = false →
      create_sanitizer nh3A bleachA name = .error no_sanitizer_msg)
  ∧ mentions no_sanitizer_msg "nh3" = true
  ∧ mentions no_sanitizer_msg "bleach" = true := by
  refine ⟨?_, ?_, ?_, ?_, ?_, by decide, by decide⟩
  · rintro rfl h; simp [create_sanitizer, h]
  · rintro rfl h
    simp only [create_sanitizer, h]
    split_ifs with h1 <;> simp_all
  · intro h hb
    simp only [create_sanitizer, h]
    split_ifs <;> simp_all
  · intro h1 h2
    simp [create_sanitizer, h1, h2]
  · intro h1 h2
    simp [create_sanitizer, h1, h2]

theorem create_sanitizer_resolution_witness :
    create_sanitizer true true (some "nh3") = .ok .nh3
  ∧ create_sanitizer false true (some "nh3") = .ok .bleach
  ∧ create_sanitizer false false none = .error no_sanitizer_msg :=
  ⟨(create_sanitizer_resolution true true (some "nh3")).1 rfl rfl,
   (create_sanitizer_resolution false true (some "nh3")).2.2.2.1 rfl rfl,
   (create_sanitizer_resolution false false none).2.2.2.2.1 rfl rfl⟩

/-- C3 (code evaluated at the failing input): the ElementTree processor
extracts `"Hello"` from `<h1>Hello <a href="#x"></a></h1>` (empty trailing
anchor trimmed) and `"Hello World"` from `<h1>Hello <em>World</em></h1>`,
and the lxml processor extracts `"Hello World"` from the latter; but on the
empty-trailing-anchor heading the lxml body raises `ValueError` inside
`remove` (it passes the original tree's child to the deepcopied heading),
so the error is swallowed at the stage boundary and the title is left unset
instead of becoming `"Hello"`. -/
theorem extract_title_lxml_divergence :
    (ExtractTitleETProcessor.process_tree
      (.mk "html" [] none [.mk "body" [] none [h1HelloAnchor] none] none) none).2 =
        some "Hello"
  ∧ (ExtractTitleETProcessor.process_tree
      (.mk "html" [] none [h1HelloEm] none) none).2 = some "Hello World"
  ∧ (ExtractTitleLXMLProcessor.process_tree
      (.mk "html" [] none [h1HelloEm] none) none).2 = some "Hello World"
  ∧ extract_title_lxml_body (.mk "html" [] none [h1HelloAnchor] none) =
      .error "Element is not a child of this node"
  ∧ (ExtractTitleLXMLProcessor.process_tree
      (.mk "html" [] none [h1HelloAnchor] none) none).2 = none
  ∧ (ExtractTitleLXMLProcessor.process_tree
      (.mk "html" [] none [h1HelloAnchor] none) (some "prior")).2 = some "prior" :=
  ⟨rfl, rfl, rfl, rfl, rfl, rfl⟩

theorem keysOf_cons (p : String × PyVal) (t : List (String × PyVal)) :
    keysOf (p :: t) = p.1 :: keysOf t := rfl

theorem any_congr_of_perm {l1 l2 : List (String × PyVal)}
    (h : List.Perm l1 l2) (f : String × PyVal → Bool) : l1.any f = l2.any f := by
  induction h with
  | nil => rfl
  | cons x _ ih => simp only [List.any_cons, ih]
  | swap x y l => simp only [List.any_cons, ← Bool.or_assoc, Bool.or_comm]
  | trans _ _ ih1 ih2 => rw [ih1, ih2]

theorem dictInsert_perm_congr {l1 l2 : List (String × PyVal)}
    (h : List.Perm l1 l2) (k : String) (v : PyVal) :
    List.Perm (dictInsert l1 k v) (dictInsert l2 k v) := by
  unfold dictInsert
  rw [any_congr_of_perm h]
  by_cases hc : (l2.any fun p => p.1 = k) = true
  · rw [if_pos hc, if_pos hc]; exact h.map _
  · rw [if_neg hc, if_neg hc]; exact h.append_right _

theorem dictUpdate_congr {b1 b2 : List (String × PyVal)}
    (h : List.Perm b1 b2) (kw : List (String × PyVal)) :
    List.Perm (dictUpdate b1 kw) (dictUpdate b2 kw) := by
  induction kw generalizing b1 b2 with
  | nil => exact h
  | cons p t ih => exact ih (dictInsert_perm_congr h p.1 p.2)

theorem dictInsert_swap {k1 k2 : String} (hk : k1 ≠ k2)
    (l : List (String × PyVal)) (v1 v2 : PyVal) :
    List.Perm (dictInsert (dictInsert l k1 v1) k2 v2)
      (dictInsert (dictInsert l k2 v2) k1 v1) := by
  have key1 : ∀ p : String × PyVal,
      ((if p.1 = k1 then (k1, v1) else p).1 = p.1) := by
    intro p; by_cases hp : p.1 = k1 <;> simp [hp]
  have key2 : ∀ p : String × PyVal,
      ((if p.1 = k2 then (k2, v2) else p).1 = p.1) := by
    intro p; by_cases hp : p.1 = k2 <;> simp [hp]
  have anymap1 : ∀ (m : List (String × PyVal)),
      ((m.map fun p => if p.1 = k1 then (k1, v1) else p).any fun p => p.1 = k2)
        = (m.any fun p => p.1 = k2) := by
    intro m
    rw [List.any_map]
    congr 1
    funext p
    simp [Function.comp, key1 p]
  have anymap2 : ∀ (m : List (String × PyVal)),
      ((m.map fun p => if p.1 = k2 then (k2, v2) else p).any fun p => p.1 = k1)
        = (m.any fun p => p.1 = k1) := by
    intro m
    rw [List.any_map]
    congr 1
    funext p
    simp [Function.comp, key2 p]
  have comm12 : ((fun p : String × PyVal => if p.1 = k2 then (k2, v2) else p) ∘
          fun p => if p.1 = k1 then (k1, v1) else p) =
        ((fun p : String × PyVal => if p.1 = k1 then (k1, v1) else p) ∘
          fun p => if p.1 = k2 then (k2, v2) else p) := by
    funext p
    simp only [Function.comp_apply]
    by_cases h1 : p.1 = k1
    · have h2 : ¬p.1 = k2 := by rw [h1]; exact hk
      rw [if_pos h1, if_neg h2, if_pos h1,
        if_neg (show ¬(k1, v1).1 = k2 by simpa using hk)]
    · by_cases h2 : p.1 = k2
      · rw [if_neg h1, if_pos h2,
          if_neg (show ¬(k2, v2).1 = k1 by simpa using hk.symm)]
      · rw [if_neg h1, if_neg h2, if_neg h1]
  by_cases c1 : (l.any fun p => p.1 = k1) = true <;>
    by_cases c2 : (l.any fun p => p.1 = k2) = true
  · have e1 : dictInsert l k1 v1 = l.map fun p => if p.1 = k1 then (k1, v1) else p := by
      unfold dictInsert; rw [if_pos c1]
    have e2 : dictInsert l k2 v2 = l.map fun p => if p.1 = k2 then (k2, v2) else p := by
      unfold dictInsert; rw [if_pos c2]
    rw [e1, e2]
    unfold dictInsert
    rw [anymap1, anymap2, if_pos c2, if_pos c1, List.map_map, List.map_map, comm12]
  · -- k1 is replaced in place, k2 is appended
    have e1 : dictInsert l k1 v1 = l.map fun p => if p.1 = k1 then (k1, v1) else p := by
      unfold dictInsert; rw [if_pos c1]
    have e2 : dictInsert l k2 v2 = l ++ [(k2, v2)] := by
      unfold dictInsert; rw [if_neg c2]
    rw [e1, e2]
    unfold dictInsert
    rw [anymap1, if_neg c2]
    have ca : ((l ++ [(k2, v2)]).any fun p => p.1 = k1) = true := by
      rw [List.any_append]; simp [c1]
    rw [if_pos ca, List.map_append]
    simp only [List.map_cons, List.map_nil]
    rw [if_neg (show ¬((k2, v2).1 = k1) by simpa using hk.symm)]
  · -- k2 is replaced in place, k1 is appended
    have e1 : dictInsert l k1 v1 = l ++ [(k1, v1)] := by
      unfold dictInsert; rw [if_neg c1]
    have e2 : dictInsert l k2 v2 = l.map fun p => if p.1 = k2 then (k2, v2) else p := by
      unfold dictInsert; rw [if_pos c2]
    rw [e1, e2]
    unfold dictInsert
    rw [anymap2, if_neg c1]
    have ca : ((l ++ [(k1, v1)]).any fun p => p.1 = k2) = true := by
      rw [List.any_append]; simp [c2]
    rw [if_pos ca, List.map_append]
    simp only [List.map_cons, List.map_nil]
    rw [if_neg (show ¬((k1, v1).1 = k2) by simpa using hk)]
  · have e1 : dictInsert l k1 v1 = l ++ [(k1, v1)] := by
      unfold dictInsert; rw [if_neg c1]
    have e2 : dictInsert l k2 v2 = l ++ [(k2, v2)] := by
      unfold dictInsert; rw [if_neg c2]
    rw [e1, e2]
    unfold dictInsert
    have c1f : (l.any fun p => p.1 = k1) = false := by
      rwa [Bool.not_eq_true] at c1
    have c2f : (l.any fun p => p.1 = k2) = false := by
      rwa [Bool.not_eq_true] at c2
    have ca2 : ((l ++ [(k1, v1)]).any fun p => p.1 = k2) = false := by
      rw [List.any_append, c2f]
      simp [hk]
    have ca1 : ((l ++ [(k2, v2)]).any fun p => p.1 = k1) = false := by
      rw [List.any_append, c1f]
      simp [hk.symm]
    rw [if_neg (by simp [ca2]), if_neg (by simp [ca1])]
    rw [List.append_assoc, List.append_assoc]
    exact List.Perm.append_left l (List.Perm.swap _ _ _)

theorem keysOf_dictInsert (l : List (String × PyVal)) (k : String) (v : PyVal) :
    keysOf (dictInsert l k v) =
      if (l.any fun p => p.1 = k) = true then keysOf l else keysOf l ++ [k] := by
  unfold dictInsert keysOf
  split
  · rw [List.map_map]
    congr 1
    funext p
    by_cases hp : p.1 = k <;> simp [Function.comp, hp]
  · simp

theorem nodupKeys_dictInsert {l : List (String × PyVal)} (hn : (keysOf l).Nodup)
    (k : String) (v : PyVal) : (keysOf (dictInsert l k v)).Nodup := by
  rw [keysOf_dictInsert]
  split
  · exact hn
  · next hc =>
    have hk : k ∉ keysOf l := by
      intro hm
      rcases List.mem_map.mp hm with ⟨p, hp, he⟩
      exact hc (List.any_eq_true.mpr ⟨p, hp, by simp [he]⟩)
    simp [List.nodup_append, hn, hk]

theorem nodupKeys_dictUpdate {b : List (String × PyVal)} (hb : (keysOf b).Nodup)
    (kw : List (String × PyVal)) : (keysOf (dictUpdate b kw)).Nodup := by
  induction kw generalizing b with
  | nil => exact hb
  | cons p t ih => exact ih (nodupKeys_dictInsert hb p.1 p.2)

theorem dictUpdate_perm {kw1 kw2 : List (String × PyVal)} (h : List.Perm kw1 kw2) :
    (keysOf kw1).Nodup → ∀ b, List.Perm (dictUpdate b kw1) (dictUpdate b kw2) := by
  induction h with
  | nil => intro _ b; exact .refl _
  | cons p _ ih =>
    intro hn b
    rw [keysOf_cons] at hn
    exact ih hn.of_cons (dictInsert b p.1 p.2)
  | swap x y l =>
    intro hn b
    rw [keysOf_cons, keysOf_cons] at hn
    have hxy : y.1 ≠ x.1 := by
      intro he
      exact (List.nodup_cons.mp hn).1 (he ▸ List.mem_cons_self x.1 (keysOf l))
    show List.Perm (dictUpdate (dictInsert (dictInsert b y.1 y.2) x.1 x.2) l)
      (dictUpdate (dictInsert (dictInsert b x.1 x.2) y.1 y.2) l)
    exact dictUpdate_congr (dictInsert_swap hxy b y.2 x.2) l
  | trans h12 _ ih1 ih2 =>
    intro hn b
    have hn2 := (h12.map Prod.fst).nodup_iff.mp hn
    exact (ih1 hn b).trans (ih2 hn2 b)

theorem eq_of_perm_sorted_nodup_keys :
    ∀ {l1 l2 : List (String × PyVal)}, List.Perm l1 l2 → (keysOf l1).Nodup →
      l1.Sorted keyLe → l2.Sorted keyLe → l1 = l2 := by
  intro l1
  induction l1 with
  | nil =>
    intro l2 h _ _ _
    exact (h.symm.eq_nil).symm
  | cons a t1 ih =>
    intro l2 h hn hs1 hs2
    cases l2 with
    | nil => exact absurd h.eq_nil (by simp)
    | cons b t2 =>
      have hb1 : b ∈ a :: t1 := h.mem_iff.mpr (List.mem_cons_self b t2)
      have ha2 : a ∈ b :: t2 := h.mem_iff.mp (List.mem_cons_self a t1)
      have hab : a = b := by
        rcases List.mem_cons.mp hb1 with he | hb1
        · exact he.symm
        · have hba : b.1 ≤ a.1 := by
            rcases List.mem_cons.mp ha2 with he | ha2
            · exact le_of_eq (congrArg Prod.fst he).symm
            · exact List.rel_of_sorted_cons hs2 a ha2
          have hab' : a.1 ≤ b.1 := List.rel_of_sorted_cons hs1 b hb1
          have hkey : a.1 = b.1 := le_antisymm hab' hba
          exfalso
          rw [keysOf_cons] at hn
          exact (List.nodup_cons.mp hn).1
            (hkey ▸ List.mem_map.mpr ⟨b, hb1, rfl⟩)
      subst hab
      have ht : List.Perm t1 t2 := h.cons_inv
      rw [keysOf_cons] at hn
      rw [ih ht (List.nodup_cons.mp hn).2 hs1.of_cons hs2.of_cons]

theorem sortPairs_perm (l : List (String × PyVal)) : List.Perm (sortPairs l) l :=
  List.perm_insertionSort keyLe l

theorem sortPairs_eq_of_perm {l1 l2 : List (String × PyVal)}
    (h : List.Perm l1 l2) (hn : (keysOf l1).Nodup) : sortPairs l1 = sortPairs l2 := by
  refine eq_of_perm_sorted_nodup_keys
    (((sortPairs_perm l1).trans h).trans (sortPairs_perm l2).symm) ?_
    (List.sorted_insertionSort keyLe l1) (List.sorted_insertionSort keyLe l2)
  exact ((sortPairs_perm l1).map Prod.fst).nodup_iff.mpr hn

theorem sortStrings_perm (l : List String) : List.Perm (sortStrings l) l :=
  List.perm_insertionSort _ l

theorem sortStrings_congr {l1 l2 : List String} (h : List.Perm l1 l2) :
    sortStrings l1 = sortStrings l2 :=
  List.eq_of_perm_of_sorted
    (((sortStrings_perm l1).trans h).trans (sortStrings_perm l2).symm)
    (List.sorted_insertionSort _ l1) (List.sorted_insertionSort _ l2)

namespace MarkdownConverter

theorem extVal_eq_extList (ext : Option (List String)) :
    extVal ext = match extList ext with
      | [] => PyVal.pnone
      | a :: t => PyVal.pstrlist (sortStrings (a :: t)) := by
  cases ext with
  | none => rfl
  | some l => cases l <;> rfl

theorem extVal_congr {ext1 ext2 : Option (List String)}
    (h : List.Perm (extList ext1) (extList ext2)) : extVal ext1 = extVal ext2 := by
  rw [extVal_eq_extList, extVal_eq_extList]
  cases he1 : extList ext1 with
  | nil =>
    rw [he1] at h
    rw [h.symm.eq_nil]
  | cons a t =>
    rw [he1] at h
    cases he2 : extList ext2 with
    | nil =>
      rw [he2] at h
      exact absurd h.eq_nil (by simp)
    | cons b u =>
      rw [he2] at h
      exact congrArg PyVal.pstrlist (sortStrings_congr h)

theorem extVal_inj {ext1 ext2 : Option (List String)}
    (h : extVal ext1 = extVal ext2) :
    List.Perm (extList ext1) (extList ext2) := by
  rw [extVal_eq_extList, extVal_eq_extList] at h
  cases he1 : extList ext1 with
  | nil =>
    cases he2 : extList ext2 with
    | nil => exact .refl _
    | cons b u => rw [he1, he2] at h; exact absurd h (by simp)
  | cons a t =>
    cases he2 : extList ext2 with
    | nil => rw [he1, he2] at h; exact absurd h (by simp)
    | cons b u =>
      rw [he1, he2] at h
      have hs : sortStrings (a :: t) = sortStrings (b :: u) := by
        injection h
      have hperm : List.Perm (sortStrings (a :: t)) (b :: u) := by
        rw [hs]; exact sortStrings_perm _
      exact (sortStrings_perm (a :: t)).symm.trans hperm

theorem base_keysOf_nodup (e : String) (x : PyVal) :
    (keysOf [("engine", PyVal.pstr e), ("extensions", x)]).Nodup := by
  simp [keysOf]

theorem dictUpdate_eq_append :
    ∀ {kw b : List (String × PyVal)}, (∀ p ∈ kw, p.1 ∉ keysOf b) →
      (keysOf kw).Nodup → dictUpdate b kw = b ++ kw := by
  intro kw
  induction kw with
  | nil => intro b _ _; simp [dictUpdate]
  | cons p t ih =>
    intro b hd hn
    have hp : p.1 ∉ keysOf b := hd p (List.mem_cons_self p t)
    have hany : (b.any fun q => q.1 = p.1) = false := by
      rw [Bool.eq_false_iff]
      intro hc
      rcases List.any_eq_true.mp hc with ⟨q, hq, he⟩
      exact hp (List.mem_map.mpr ⟨q, hq, by simpa using he⟩)
    show dictUpdate (dictInsert b p.1 p.2) t = b ++ p :: t
    have hins : dictInsert b p.1 p.2 = b ++ [p] := by
      unfold dictInsert
      rw [if_neg (by simp [hany])]
    rw [hins]
    rw [keysOf_cons] at hn
    rw [ih ?_ hn.of_cons]
    · rw [List.append_assoc]; rfl
    · intro q hq
      have hqb : q.1 ∉ keysOf b := hd q (List.mem_cons_of_mem p hq)
      have hqp : q.1 ≠ p.1 := by
        intro he
        exact (List.nodup_cons.mp hn).1 (he ▸ List.mem_map.mpr ⟨q, hq, rfl⟩)
      intro hm
      rcases List.mem_map.mp hm with ⟨r, hr, hre⟩
      rcases List.mem_append.mp hr with hrb | hrp
      · exact hqb (hre ▸ List.mem_map.mpr ⟨r, hrb, rfl⟩)
      · have : r = p := by simpa using hrp
        exact hqp (hre ▸ this ▸ rfl)

/-- `_get_cache_key` congruence: logically identical configurations (same
engine, same extensions up to order, same keyword dict up to insertion order)
produce equal cache keys. -/
theorem get_cache_key_congr (e : String) {ext1 ext2 : Option (List String)}
    {kw1 kw2 : List (String × PyVal)}
    (hext : List.Perm (extList ext1) (extList ext2)) (hkw : List.Perm kw1 kw2)
    (hn : NodupKeys kw1) :
    get_cache_key e ext1 kw1 = get_cache_key e ext2 kw2 := by
  unfold get_cache_key cache_data
  rw [extVal_congr hext]
  exact sortPairs_eq_of_perm (dictUpdate_perm hkw hn _)
    (nodupKeys_dictUpdate (base_keysOf_nodup e _) kw1)

/-- `_get_cache_key` injectivity on reserved-free keyword dicts: equal cache
keys force the same engine, the same extensions up to order and the same
keyword dict. -/
theorem get_cache_key_inj {e1 e2 : String} {ext1 ext2 : Option (List String)}
    {kw1 kw2 : List (String × PyVal)}
    (hn1 : NodupKeys kw1) (hr1 : ReservedFree kw1)
    (hn2 : NodupKeys kw2) (hr2 : ReservedFree kw2)
    (heq : get_cache_key e1 ext1 kw1 = get_cache_key e2 ext2 kw2) :
    e1 = e2 ∧ List.Perm (extList ext1) (extList ext2) ∧ List.Perm kw1 kw2 := by
  have hd1 : ∀ p ∈ kw1, p.1 ∉ keysOf [("engine", PyVal.pstr e1), ("extensions", extVal ext1)] := by
    intro p hp
    have := hr1 p hp
    simp [keysOf, this.1, this.2]
  have hd2 : ∀ p ∈ kw2, p.1 ∉ keysOf [("engine", PyVal.pstr e2), ("extensions", extVal ext2)] := by
    intro p hp
    have := hr2 p hp
    simp [keysOf, this.1, this.2]
  have ha1 : cache_data e1 ext1 kw1 =
      [("engine", PyVal.pstr e1), ("extensions", extVal ext1)] ++ kw1 :=
    dictUpdate_eq_append hd1 hn1
  have ha2 : cache_data e2 ext2 kw2 =
      [("engine", PyVal.pstr e2), ("extensions", extVal ext2)] ++ kw2 :=
    dictUpdate_eq_append hd2 hn2
  have hperm : List.Perm
      ([("engine", PyVal.pstr e1), ("extensions", extVal ext1)] ++ kw1)
      ([("engine", PyVal.pstr e2), ("extensions", extVal ext2)] ++ kw2) := by
    unfold get_cache_key at heq
    rw [ha1, ha2] at heq
    have h2 := sortPairs_perm
      ([("engine", PyVal.pstr e2), ("extensions", extVal ext2)] ++ kw2)
    rw [← heq] at h2
    exact (sortPairs_perm _).symm.trans h2
  have he : e1 = e2 := by
    have hm : (("engine", PyVal.pstr e1) : String × PyVal) ∈
        [("engine", PyVal.pstr e2), ("extensions", extVal ext2)] ++ kw2 :=
      hperm.mem_iff.mp (by simp)
    rcases List.mem_append.mp hm with hb | hk
    · rcases List.mem_cons.mp hb with he' | hb
      · simpa using congrArg Prod.snd he'
      · have hco : (("engine", PyVal.pstr e1) : String × PyVal) =
            ("extensions", extVal ext2) := List.mem_singleton.mp hb
        exact absurd (congrArg Prod.fst hco) (by simp)
    · exact absurd rfl (hr2 _ hk).1
  have hx : extVal ext1 = extVal ext2 := by
    have hm : (("extensions", extVal ext1) : String × PyVal) ∈
        [("engine", PyVal.pstr e2), ("extensions", extVal ext2)] ++ kw2 :=
      hperm.mem_iff.mp (by simp)
    rcases List.mem_append.mp hm with hb | hk
    · rcases List.mem_cons.mp hb with he' | hb
      · exact absurd (congrArg Prod.fst he') (by simp)
      · have hco : (("extensions", extVal ext1) : String × PyVal) =
            ("extensions", extVal ext2) := List.mem_singleton.mp hb
        exact congrArg Prod.snd hco
    · exact absurd rfl (hr2 _ hk).2
  refine ⟨he, extVal_inj hx, ?_⟩
  rw [he, hx] at hperm
  exact (List.perm_append_left_iff _).mp hperm

theorem lookup_append_of_not_mem {key : List (String × PyVal)} {cid : Nat}
    {c : List (List (String × PyVal) × Nat)}
    (h : c.lookup key = none) : (c ++ [(key, cid)]).lookup key = some cid := by
  induction c with
  | nil => simp [List.lookup]
  | cons p t ih =>
    rw [List.cons_append, List.lookup] at *
    cases hb : (key == p.1) with
    | true => simp [hb] at h
    | false => simp only [hb] at h ⊢; exact ih h

theorem convert_hit {e : String} {ext : Option (List String)} {adm : Bool}
    {kw : List (String × PyVal)} {s : ConvState} {cid : Nat}
    (hl : s.cache.lookup (get_cache_key e ext kw) = some cid) :
    convert e true ext adm kw s = (.ok cid, s) := by
  unfold convert
  rw [if_pos rfl, hl]

theorem convert_miss_adapter {e : String} {ext : Option (List String)} {adm : Bool}
    {kw : List (String × PyVal)} {s : ConvState}
    (hl : s.cache.lookup (get_cache_key e ext kw) = none)
    (ha : engineHasAdapter e = true) :
    convert e true ext adm kw s =
      (.ok s.nextId,
       ⟨s.cache ++ [(get_cache_key e ext kw, s.nextId)], s.nextId + 1⟩) := by
  unfold convert convert_with_engine
  rw [if_pos rfl, hl, if_pos ha]

theorem convert_miss_no_adapter {e : String} {ext : Option (List String)} {adm : Bool}
    {kw : List (String × PyVal)} {s : ConvState}
    (hl : s.cache.lookup (get_cache_key e ext kw) = none)
    (ha : engineHasAdapter e = false) :
    convert e true ext adm kw s = (.error ("Unsupported engine: " ++ e), s) := by
  unfold convert convert_with_engine
  rw [if_pos rfl, hl, if_neg (by simp [ha])]

end MarkdownConverter

/-- C6 (code evaluated at the failing input): `"markdownify"` and
`"mdx_math"` are accepted by the `MarkdownConverter` constructor because they
are in `SUPPORTED_ENGINES`, yet `convert` on such an instance fails with the
unsupported-engine `ValueError`; names outside the list are rejected at
construction with a message listing the supported engines. -/
theorem unsupported_engine_mismatch :
    MarkdownConverter.init "markdownify" = .ok "markdownify"
  ∧ MarkdownConverter.init "mdx_math" = .ok "mdx_math"
  ∧ (MarkdownConverter.convert "markdownify" true none false [] ⟨[], 0⟩).1 =
      .error "Unsupported engine: markdownify"
  ∧ (MarkdownConverter.convert_with_engine "mdx_math" ⟨[], 0⟩).1 =
      .error "Unsupported engine: mdx_math"
  ∧ MarkdownConverter.init "rst" =
      .error ("Unsupported engine. Choose from: " ++
        String.intercalate ", " MarkdownConverter.SUPPORTED_ENGINES) := by
  refine ⟨rfl, rfl, ?_, rfl, rfl⟩
  rfl

/-- C7: the cache key is order-independent — permuting the extensions list or
the insertion order of the keyword options yields an equal key. -/
theorem cache_key_order_independent (e : String) (ext1 ext2 : List String)
    (kw1 kw2 : List (String × PyVal)) (hext : List.Perm ext1 ext2)
    (hkw : List.Perm kw1 kw2) (hn : NodupKeys kw1) :
    MarkdownConverter.get_cache_key e (some ext1) kw1 =
      MarkdownConverter.get_cache_key e (some ext2) kw2 :=
  MarkdownConverter.get_cache_key_congr e
    (show List.Perm (extList (some ext1)) (extList (some ext2)) from hext) hkw hn

theorem cache_key_order_independent_witness :
    MarkdownConverter.get_cache_key "mistune" (some ["b", "a"])
        [("y", .pbool true), ("x", .pint 2)] =
      MarkdownConverter.get_cache_key "mistune" (some ["a", "b"])
        [("x", .pint 2), ("y", .pbool true)] :=
  cache_key_order_independent "mistune" _ _ _ _ (by decide) (by decide)
    (show (keysOf [("y", .pbool true), ("x", .pint 2)]).Nodup by decide)

/-- C1 (amended): with caching enabled, a second `convert` call on the same
engine whose configuration is logically identical to the first call's —
equal extensions up to order and equal keyword options up to insertion
order — reuses the converter the first call used or stored, performing no
new construction and leaving the state untouched, and this holds even when
the two calls disagree on `admonitions`, which is not part of the cache key;
and for keyword options that avoid the reserved `cache_data` entry names
`"engine"` and `"extensions"`, calls whose extensions or keyword options
differ logically have distinct cache keys and so never share a cache entry.
Both restrictions are forced by the key construction: calls differing only
in `admonitions`, or only by a kwarg named `"engine"` carrying the engine's
own name, do share an entry, as the counterexample theorem shows. -/
theorem converter_cache_reuse_and_isolation (e : String)
    (ext1 ext2 : Option (List String)) (adm1 adm2 : Bool)
    (kw1 kw2 : List (String × PyVal)) (s : MarkdownConverter.ConvState)
    (hn1 : NodupKeys kw1) (hr1 : ReservedFree kw1)
    (hn2 : NodupKeys kw2) (hr2 : ReservedFree kw2) :
    (ConfigEquiv ext1 kw1 ext2 kw2 →
      MarkdownConverter.convert e true ext2 adm2 kw2
          (MarkdownConverter.convert e true ext1 adm1 kw1 s).2 =
        MarkdownConverter.convert e true ext1 adm1 kw1 s)
  ∧ (¬ConfigEquiv ext1 kw1 ext2 kw2 →
      MarkdownConverter.get_cache_key e ext1 kw1 ≠
        MarkdownConverter.get_cache_key e ext2 kw2) := by
  constructor
  · rintro ⟨hext, hkw⟩
    have hkey : MarkdownConverter.get_cache_key e ext1 kw1 =
        MarkdownConverter.get_cache_key e ext2 kw2 :=
      MarkdownConverter.get_cache_key_congr e hext hkw hn1
    cases hl : s.cache.lookup (MarkdownConverter.get_cache_key e ext1 kw1) with
    | some cid =>
      rw [MarkdownConverter.convert_hit hl]
      exact MarkdownConverter.convert_hit (hkey ▸ hl)
    | none =>
      cases ha : MarkdownConverter.engineHasAdapter e with
      | true =>
        rw [MarkdownConverter.convert_miss_adapter hl ha]
        exact MarkdownConverter.convert_hit
          (hkey ▸ MarkdownConverter.lookup_append_of_not_mem hl)
      | false =>
        rw [MarkdownConverter.convert_miss_no_adapter hl ha]
        exact MarkdownConverter.convert_miss_no_adapter (hkey ▸ hl) ha
  · intro hne hkeyeq
    rcases MarkdownConverter.get_cache_key_inj hn1 hr1 hn2 hr2 hkeyeq
      with ⟨_, hext, hkw⟩
    exact hne ⟨hext, hkw⟩

theorem converter_cache_reuse_and_isolation_witness :
    (MarkdownConverter.convert "mistune" true (some ["b", "a"]) true
        [("x", .pint 2)]
        (MarkdownConverter.convert "mistune" true (some ["a", "b"]) false
          [("x", .pint 2)] ⟨[], 0⟩).2 =
      MarkdownConverter.convert "mistune" true (some ["a", "b"]) false
        [("x", .pint 2)] ⟨[], 0⟩)
  ∧ MarkdownConverter.get_cache_key "mistune" (some ["a"]) [] ≠
      MarkdownConverter.get_cache_key "mistune" (some ["a", "a"]) [] :=
  ⟨(converter_cache_reuse_and_isolation "mistune" (some ["a", "b"])
      (some ["b", "a"]) false true [("x", .pint 2)] [("x", .pint 2)] ⟨[], 0⟩
      (show (keysOf [("x", .pint 2)]).Nodup by decide)
      (show ∀ p ∈ [(("x" : String), PyVal.pint 2)],
        p.1 ≠ "engine" ∧ p.1 ≠ "extensions" by decide)
      (show (keysOf [("x", .pint 2)]).Nodup by decide)
      (show ∀ p ∈ [(("x" : String), PyVal.pint 2)],
        p.1 ≠ "engine" ∧ p.1 ≠ "extensions" by decide)).1
    ⟨by decide, by decide⟩,
   (converter_cache_reuse_and_isolation "mistune" (some ["a"]) (some ["a", "a"])
      false false [] [] ⟨[], 0⟩
      (show (keysOf ([] : List (String × PyVal))).Nodup by decide)
      (show ∀ p ∈ ([] : List (String × PyVal)),
        p.1 ≠ "engine" ∧ p.1 ≠ "extensions" by decide)
      (show (keysOf ([] : List (String × PyVal))).Nodup by decide)
      (show ∀ p ∈ ([] : List (String × PyVal)),
        p.1 ≠ "engine" ∧ p.1 ≠ "extensions" by decide)).2
    (by
      rintro ⟨hext, -⟩
      have := hext.length_eq
      simp [extList] at this)⟩

/-- C1 counterexamples to the claim as stated — two ways logically different
configurations share a cache entry.  (a) `admonitions` is not part of the
key: the first call (admonitions off) constructs and stores converter `0`,
and a second call differing only in admonitions is served from that same
entry with no new construction and no state change.  (b) `convert` has no
`engine` parameter, so a keyword option literally named `"engine"` reaches
`**kwargs` and overwrites the `"engine"` entry of `cache_data`: the keys for
kwargs `{}` and `{"engine": <the engine>}` coincide, and the call with that
logically different kwargs dict is likewise served from the stored entry. -/
theorem converter_cache_key_collisions :
    (MarkdownConverter.convert "mistune" true none false [] ⟨[], 0⟩).1 = .ok 0
  ∧ MarkdownConverter.convert "mistune" true none true []
        (MarkdownConverter.convert "mistune" true none false [] ⟨[], 0⟩).2 =
      (.ok 0, (MarkdownConverter.convert "mistune" true none false [] ⟨[], 0⟩).2)
  ∧ MarkdownConverter.get_cache_key "mistune" none [("engine", .pstr "mistune")] =
      MarkdownConverter.get_cache_key "mistune" none []
  ∧ MarkdownConverter.convert "mistune" true none false
        [("engine", .pstr "mistune")]
        (MarkdownConverter.convert "mistune" true none false [] ⟨[], 0⟩).2 =
      (.ok 0, (MarkdownConverter.convert "mistune" true none false [] ⟨[], 0⟩).2) := by
  have hl : (⟨[], 0⟩ : MarkdownConverter.ConvState).cache.lookup
      (MarkdownConverter.get_cache_key "mistune" none []) = none := rfl
  have ha : MarkdownConverter.engineHasAdapter "mistune" = true := by decide
  have hkeq : MarkdownConverter.get_cache_key "mistune" none
        [("engine", .pstr "mistune")] =
      MarkdownConverter.get_cache_key "mistune" none [] := rfl
  have h1 := @MarkdownConverter.convert_miss_adapter "mistune" none false [] ⟨[], 0⟩ hl ha
  refine ⟨?_, ?_, hkeq, ?_⟩
  · rw [h1]
  · rw [h1]
    exact MarkdownConverter.convert_hit
      (MarkdownConverter.lookup_append_of_not_mem hl)
  · rw [h1]
    exact MarkdownConverter.convert_hit
      (hkeq ▸ MarkdownConverter.lookup_append_of_not_mem hl)

/-- C8: with caching disabled, `convert` never touches the converter cache —
the cache mapping is identical before and after the call — and (for engines
with a conversion branch) constructs a fresh converter via the
engine-specific path. -/
theorem convert_cache_disabled_frame (e : String) (ext : Option (List String))
    (adm : Bool) (kw : List (String × PyVal)) (s : MarkdownConverter.ConvState) :
    (MarkdownConverter.convert e false ext adm kw s).2.cache = s.cache
  ∧ (MarkdownConverter.engineHasAdapter e = true →
      (MarkdownConverter.convert e false ext adm kw s).1 = .ok s.nextId ∧
      (MarkdownConverter.convert e false ext adm kw s).2.nextId = s.nextId + 1) := by
  constructor
  · unfold MarkdownConverter.convert MarkdownConverter.convert_with_engine
    rw [if_neg (by simp)]
    split <;> rfl
  · intro ha
    unfold MarkdownConverter.convert MarkdownConverter.convert_with_engine
    rw [if_neg (by simp), if_pos ha]
    exact ⟨rfl, rfl⟩

theorem convert_cache_disabled_frame_witness :
    (MarkdownConverter.convert "markdown2" false (some ["x"]) true []
        ⟨[], 5⟩).2.cache = ([] : List (List (String × PyVal) × Nat))
  ∧ (MarkdownConverter.convert "markdown2" false (some ["x"]) true []
        ⟨[], 5⟩).1 = .ok 5
  ∧ (MarkdownConverter.convert "markdown2" false (some ["x"]) true []
        ⟨[], 5⟩).2.nextId = 6 := by
  have h := convert_cache_disabled_frame "markdown2" (some ["x"]) true [] ⟨[], 5⟩
  have h2 := h.2 (by decide)
  exact ⟨h.1, h2.1, h2.2⟩

namespace MarkoParser

theorem toggleStep_nodup {exts : List String} (hn : exts.Nodup)
    (o : List (String × Bool)) (p : String × String) :
    (toggleStep o exts p).Nodup := by
  cases hl : o.lookup p.1 with
  | none => simpa only [toggleStep, hl] using hn
  | some b =>
    cases b with
    | true =>
      simp only [toggleStep, hl]
      by_cases hm : p.2 ∈ exts
      · simpa only [if_pos hm] using hn
      · rw [if_neg hm]
        simp [List.nodup_append, hn, hm]
    | false =>
      simp only [toggleStep, hl]
      by_cases hm : p.2 ∈ exts
      · simpa only [if_pos hm] using hn.erase p.2
      · simpa only [if_neg hm] using hn

theorem decide_mem_toggleStep {exts : List String} (hn : exts.Nodup)
    (o : List (String × Bool)) (p : String × String) (x : String) :
    decide (x ∈ toggleStep o exts p) =
      if p.2 = x then (o.lookup p.1).getD (decide (x ∈ exts))
      else decide (x ∈ exts) := by
  cases hl : o.lookup p.1 with
  | none =>
    simp only [toggleStep, hl, Option.getD_none]
    split <;> rfl
  | some b =>
    simp only [toggleStep, hl, Option.getD_some]
    cases b with
    | true =>
      by_cases hx : p.2 = x
      · subst hx
        by_cases hm : p.2 ∈ exts
        · simp [hm]
        · simp [hm]
      · by_cases hm : p.2 ∈ exts
        · simp [hm, hx]
        · rw [if_neg hm, if_neg hx]
          simp [List.mem_append, Ne.symm hx]
    | false =>
      by_cases hx : p.2 = x
      · subst hx
        by_cases hm : p.2 ∈ exts
        · simp [hm, hn.not_mem_erase]
        · simp [hm]
      · by_cases hm : p.2 ∈ exts
        · simp [hm, hx, List.mem_erase_of_ne (Ne.symm hx)]
        · simp [hm, hx]

theorem foldl_toggle_nodup (o : List (String × Bool)) :
    ∀ (steps : List (String × String)) {exts : List String}, exts.Nodup →
      (steps.foldl (toggleStep o) exts).Nodup := by
  intro steps
  induction steps with
  | nil => intro exts hn; exact hn
  | cons p t ih => intro exts hn; exact ih (toggleStep_nodup hn o p)

theorem decide_mem_foldl_toggle (o : List (String × Bool)) (x : String) :
    ∀ (steps : List (String × String)) {exts : List String}, exts.Nodup →
      decide (x ∈ steps.foldl (toggleStep o) exts) =
        resolveFlag o steps x (decide (x ∈ exts)) := by
  intro steps
  induction steps with
  | nil => intro exts _; rfl
  | cons p t ih =>
    intro exts hn
    show decide (x ∈ t.foldl (toggleStep o) (toggleStep o exts p)) =
      resolveFlag o t x (if p.2 = x then (o.lookup p.1).getD (decide (x ∈ exts))
        else decide (x ∈ exts))
    rw [ih (toggleStep_nodup hn o p), decide_mem_toggleStep hn o p x]

theorem initExtensions_nodup : ∀ a : Args, (initExtensions a).Nodup := by decide

theorem initExtensions_gfm_excluded : ∀ a : Args, a.gfm = true →
    "tables" ∉ initExtensions a ∧ "strikethrough" ∉ initExtensions a ∧
      "tasklist" ∉ initExtensions a := by decide

theorem initExtensions_flags : ∀ a : Args, a.gfm = false →
    (("tables" ∈ initExtensions a) ↔ a.tables = true)
  ∧ (("strikethrough" ∈ initExtensions a) ↔ a.strikethrough = true)
  ∧ (("tasklist" ∈ initExtensions a) ↔ a.tasklists = true) := by decide

theorem commonOptions_filtered :
    commonOptions.filter (fun p => p.2 ∉ gfmExcluded) =
      [("footnotes", "footnote"), ("footnote", "footnote"), ("pangu", "pangu"),
       ("codehilite", "codehilite"), ("toc", "toc")] := by decide

theorem resolveFlag_filtered_id (o : List (String × Bool)) (i : Bool)
    (x : String) (hx : x = "tables" ∨ x = "strikethrough" ∨ x = "tasklist") :
    resolveFlag o [("footnotes", "footnote"), ("footnote", "footnote"),
      ("pangu", "pangu"), ("codehilite", "codehilite"), ("toc", "toc")] x i = i := by
  rcases hx with rfl | rfl | rfl <;>
    simp [resolveFlag, List.foldl]

theorem resolveFlag_common_tables (o : List (String × Bool)) (i : Bool) :
    resolveFlag o commonOptions "tables" i =
      (o.lookup "table").getD ((o.lookup "tables").getD i) := by
  simp [resolveFlag, commonOptions, List.foldl]

theorem resolveFlag_common_strikethrough (o : List (String × Bool)) (i : Bool) :
    resolveFlag o commonOptions "strikethrough" i =
      (o.lookup "strikethrough").getD i := by
  simp [resolveFlag, commonOptions, List.foldl]

theorem resolveFlag_common_tasklist (o : List (String × Bool)) (i : Bool) :
    resolveFlag o commonOptions "tasklist" i =
      (o.lookup "tasklists").getD ((o.lookup "tasklist").getD i) := by
  simp [resolveFlag, commonOptions, List.foldl]

theorem convertExtensions_nil (a : Args) : convertExtensions a [] = initExtensions a := by
  simp [convertExtensions]

theorem convertExtensions_gfm_on {a : Args} {options : List (String × Bool)}
    (ho : options ≠ []) (hg : (options.lookup "gfm").getD a.gfm = true) :
    convertExtensions a options =
      [("footnotes", "footnote"), ("footnote", "footnote"), ("pangu", "pangu"),
        ("codehilite", "codehilite"), ("toc", "toc")].foldl
        (toggleStep options) (initExtensions a) := by
  unfold convertExtensions
  rw [if_neg ho, if_pos (by rw [hg]), commonOptions_filtered]

theorem convertExtensions_gfm_off {a : Args} {options : List (String × Bool)}
    (ho : options ≠ []) (hg : (options.lookup "gfm").getD a.gfm = false) :
    convertExtensions a options =
      commonOptions.foldl (toggleStep options) (initExtensions a) := by
  unfold convertExtensions
  rw [if_neg ho, if_neg (by rw [hg]; exact Bool.false_ne_true)]

/-- C9 (amended): in `MarkoParser`, the GFM-implied extensions `tables`,
`strikethrough` and `tasklist` are never in the extension list when GFM is on,
and are included exactly according to their flags when GFM is off — at
construction unconditionally, and for per-call overrides whenever the call's
effective GFM setting agrees with the constructed one (per-call flags fall
back to the constructed extension list, with the later-iterated alias key
winning when both alias keys are supplied).  When the per-call GFM setting
differs from the constructed one the guarantee fails (see the
counterexample). -/
theorem gfm_extension_handling (a : Args) (options : List (String × Bool)) :
    (a.gfm = true →
      "tables" ∉ initExtensions a ∧ "strikethrough" ∉ initExtensions a ∧
        "tasklist" ∉ initExtensions a)
  ∧ (a.gfm = false →
      (("tables" ∈ initExtensions a) ↔ a.tables = true) ∧
      (("strikethrough" ∈ initExtensions a) ↔ a.strikethrough = true) ∧
      (("tasklist" ∈ initExtensions a) ↔ a.tasklists = true))
  ∧ (a.gfm = true → effectiveGfm a options = true →
      "tables" ∉ convertExtensions a options ∧
      "strikethrough" ∉ convertExtensions a options ∧
      "tasklist" ∉ convertExtensions a options)
  ∧ (a.gfm = false → effectiveGfm a options = false →
      (("tables" ∈ convertExtensions a options) ↔ effectiveTables a options = true) ∧
      (("strikethrough" ∈ convertExtensions a options) ↔
        effectiveStrikethrough a options = true) ∧
      (("tasklist" ∈ convertExtensions a options) ↔
        effectiveTasklists a options = true)) := by
  refine ⟨initExtensions_gfm_excluded a, initExtensions_flags a, ?_, ?_⟩
  · intro hg hge
    by_cases ho : options = []
    · subst ho
      rw [convertExtensions_nil]
      exact initExtensions_gfm_excluded a hg
    · have hgfm : (options.lookup "gfm").getD a.gfm = true := by
        unfold effectiveGfm at hge
        rwa [if_neg ho] at hge
      rw [convertExtensions_gfm_on ho hgfm]
      have hnod := initExtensions_nodup a
      have hex := initExtensions_gfm_excluded a hg
      refine ⟨?_, ?_, ?_⟩
      · intro hm
        have hd := decide_mem_foldl_toggle options "tables"
          [("footnotes", "footnote"), ("footnote", "footnote"), ("pangu", "pangu"),
          ("codehilite", "codehilite"), ("toc", "toc")] hnod
        rw [resolveFlag_filtered_id options _ "tables" (Or.inl rfl)] at hd
        exact hex.1 (of_decide_eq_true (hd ▸ decide_eq_true hm))
      · intro hm
        have hd := decide_mem_foldl_toggle options "strikethrough"
          [("footnotes", "footnote"), ("footnote", "footnote"), ("pangu", "pangu"),
          ("codehilite", "codehilite"), ("toc", "toc")] hnod
        rw [resolveFlag_filtered_id options _ "strikethrough" (Or.inr (Or.inl rfl))] at hd
        exact hex.2.1 (of_decide_eq_true (hd ▸ decide_eq_true hm))
      · intro hm
        have hd := decide_mem_foldl_toggle options "tasklist"
          [("footnotes", "footnote"), ("footnote", "footnote"), ("pangu", "pangu"),
          ("codehilite", "codehilite"), ("toc", "toc")] hnod
        rw [resolveFlag_filtered_id options _ "tasklist" (Or.inr (Or.inr rfl))] at hd
        exact hex.2.2 (of_decide_eq_true (hd ▸ decide_eq_true hm))
  · intro hg hge
    by_cases ho : options = []
    · subst ho
      rw [convertExtensions_nil]
      have hfl := initExtensions_flags a hg
      refine ⟨?_, ?_, ?_⟩
      · simpa [effectiveTables, List.lookup] using hfl.1
      · simpa [effectiveStrikethrough, List.lookup] using hfl.2.1
      · simpa [effectiveTasklists, List.lookup] using hfl.2.2
    · have hgfm : (options.lookup "gfm").getD a.gfm = false := by
        unfold effectiveGfm at hge
        rwa [if_neg ho] at hge
      rw [convertExtensions_gfm_off ho hgfm]
      have hnod := initExtensions_nodup a
      have hfl := initExtensions_flags a hg
      have hdt : decide ("tables" ∈ initExtensions a) = a.tables := by
        cases hb : a.tables with
        | false => exact decide_eq_false fun hm => by simpa [hb] using hfl.1.mp hm
        | true => exact decide_eq_true (hfl.1.mpr hb)
      have hds : decide ("strikethrough" ∈ initExtensions a) = a.strikethrough := by
        cases hb : a.strikethrough with
        | false => exact decide_eq_false fun hm => by simpa [hb] using hfl.2.1.mp hm
        | true => exact decide_eq_true (hfl.2.1.mpr hb)
      have hdl : decide ("tasklist" ∈ initExtensions a) = a.tasklists := by
        cases hb : a.tasklists with
        | false => exact decide_eq_false fun hm => by simpa [hb] using hfl.2.2.mp hm
        | true => exact decide_eq_true (hfl.2.2.mpr hb)
      refine ⟨?_, ?_, ?_⟩
      · have hd := decide_mem_foldl_toggle options "tables" commonOptions hnod
        rw [resolveFlag_common_tables, hdt] at hd
        have hd2 : decide ("tables" ∈ commonOptions.foldl (toggleStep options)
            (initExtensions a)) = effectiveTables a options := hd
        exact ⟨fun hm => hd2.symm.trans (decide_eq_true hm),
          fun hf => of_decide_eq_true (hd2.trans hf)⟩
      · have hd := decide_mem_foldl_toggle options "strikethrough" commonOptions hnod
        rw [resolveFlag_common_strikethrough, hds] at hd
        have hd2 : decide ("strikethrough" ∈ commonOptions.foldl (toggleStep options)
            (initExtensions a)) = effectiveStrikethrough a options := hd
        exact ⟨fun hm => hd2.symm.trans (decide_eq_true hm),
          fun hf => of_decide_eq_true (hd2.trans hf)⟩
      · have hd := decide_mem_foldl_toggle options "tasklist" commonOptions hnod
        rw [resolveFlag_common_tasklist, hdl] at hd
        have hd2 : decide ("tasklist" ∈ commonOptions.foldl (toggleStep options)
            (initExtensions a)) = effectiveTasklists a options := hd
        exact ⟨fun hm => hd2.symm.trans (decide_eq_true hm),
          fun hf => of_decide_eq_true (hd2.trans hf)⟩

/-- C9 counterexample to the claim as stated: a parser constructed with
`gfm=False, tables=True` has `"tables"` in its extension list; a `convert`
call overriding `gfm=True` keeps `"tables"` in the list it hands to marko
even though GFM is enabled, so the GFM-implied extension is duplicated. -/
theorem gfm_extension_counterexample :
    effectiveGfm ⟨true, false, false, false, false, false, false, false⟩
        [("gfm", true)] = true
  ∧ "tables" ∈ convertExtensions
      ⟨true, false, false, false, false, false, false, false⟩ [("gfm", true)] := by
  decide

theorem gfm_extension_handling_witness :
    ("strikethrough" ∈ convertExtensions
        ⟨false, false, true, false, false, false, false, false⟩
        [("strikethrough", false)] ↔
      effectiveStrikethrough
        ⟨false, false, true, false, false, false, false, false⟩
        [("strikethrough", false)] = true)
  ∧ "tables" ∉ convertExtensions
      ⟨false, false, false, false, true, false, false, false⟩ [("footnotes", true)] :=
  ⟨((gfm_extension_handling
      ⟨false, false, true, false, false, false, false, false⟩
      [("strikethrough", false)]).2.2.2 rfl rfl).2.1,
   ((gfm_extension_handling
      ⟨false, false, false, false, true, false, false, false⟩
      [("footnotes", true)]).2.2.1 rfl rfl).1⟩

end MarkoParser

end Mkdown
